import Mathlib

/-!
Verification of the executive-order monitor: a polling loop that fetches a
document listing, detects identifiers not yet in a persisted seen-set,
fetches each new item's details, prints a notification, records the item,
and persists the seen-set.  The scheduler escalates or relaxes the polling
interval along a fixed list according to cycle success or failure.

The embedding mirrors `executiveordermonitor.py`:
  * the seen-set (a Python dict keyed by document number, insertion order
    preserved) is an association list with append-insert and first-match
    lookup;
  * network effects are modelled by an `ApiWorld` giving, for each retry
    attempt, the outcome of the listing call and of each detail call;
  * console notifications and issued detail requests are recorded as logs
    (lists of document numbers, in order of occurrence);
  * `check_eos` is the cycle body with its retry loop (`MAX_RETRIES`
    attempts); the in-memory seen dict survives across attempts exactly as
    the mutated Python dict does;
  * `schedStep` is the success/failure transition of the backoff state in
    `main` over `POLL_INTERVALS`.
-/

namespace EOMonitor

/-- Module-level constant `POLL_INTERVALS = [1, 5, 10, 30, 60]`. -/
def POLL_INTERVALS : List Nat := [1, 5, 10, 30, 60]

/-- Module-level constant `MAX_RETRIES = 3`. -/
def MAX_RETRIES : Nat := 3

/-- Module-level constant `RETRY_DELAY = 5` (seconds slept between retries). -/
def RETRY_DELAY : Nat := 5

/-- The detail fields read from a detail response via `doc.get(...)`; each may
be absent (`None`), hence `Option`. -/
structure DocDetail where
  title : Option String
  executive_order_number : Option String
  signing_date : Option String
  publication_date : Option String
  html_url : Option String
  pdf_url : Option String
  raw_text_url : Option String
  body_html_url : Option String
deriving Repr, DecidableEq

/-- The `eo_data` dict stored in the seen-set: the detail fields plus the
document number taken from the summary record. -/
structure EOData where
  title : Option String
  executive_order_number : Option String
  document_number : String
  signing_date : Option String
  publication_date : Option String
  html_url : Option String
  pdf_url : Option String
  raw_text_url : Option String
  body_html_url : Option String
deriving Repr, DecidableEq

/-- Construction of `eo_data` from a detail document and the summary's
document number. -/
def buildEOData (doc : DocDetail) (doc_num : String) : EOData :=
  { title := doc.title,
    executive_order_number := doc.executive_order_number,
    document_number := doc_num,
    signing_date := doc.signing_date,
    publication_date := doc.publication_date,
    html_url := doc.html_url,
    pdf_url := doc.pdf_url,
    raw_text_url := doc.raw_text_url,
    body_html_url := doc.body_html_url }

/-- A summary record from the listing response; `result.get('document_number')`
may be absent. -/
structure SummaryRec where
  document_number : Option String
deriving Repr, DecidableEq

/-- The seen-set: a string-keyed mapping preserving insertion order, as a
Python dict does. -/
abbrev Seen := List (String × EOData)

/-- Lookup in the seen-set (first matching key). -/
def seenLookup (s : Seen) (k : String) : Option EOData :=
  (s.find? (fun p => p.1 == k)).map (fun p => p.2)

/-- Membership test, the Python `doc_num in seen_eos`. -/
def seenContains (s : Seen) (k : String) : Bool :=
  (seenLookup s k).isSome

/-- Insertion of a fresh key, the Python `seen_eos[doc_num] = eo_data`; new
keys are appended, preserving insertion order. -/
def seenInsert (s : Seen) (k : String) (v : EOData) : Seen :=
  s ++ [(k, v)]

/-- The document numbers present in a listing, in order. -/
def listingIds (results : List SummaryRec) : List String :=
  results.filterMap (fun r => r.document_number)

/-- `load_seen_eos`: returns the empty mapping when the cache file is absent,
otherwise parses the file's contents, propagating any parse failure.  The
filesystem is abstracted as the optional file contents and `json.load` as the
`parseJson` function. -/
def load_seen_eos (file : Option String)
    (parseJson : String → Except String Seen) : Except String Seen :=
  match file with
  | some contents => parseJson contents
  | none => Except.ok ([] : Seen)

/-- `save_seen_eos`: serializes the full mapping and overwrites the cache
file; the resulting file content is the mapping itself. -/
def save_seen_eos (seen_eos : Seen) : Seen := seen_eos

/-- Outcomes of the network calls, per retry attempt: `listing n` is the
result of the listing request on attempt `n`, and `detail n d` that of the
detail request for document number `d` on attempt `n`.  An `Except.error`
is a raised `RequestException`. -/
structure ApiWorld where
  listing : Nat → Except String (List SummaryRec)
  detail : Nat → String → Except String DocDetail

/-- The mutable state of one `check_eos` invocation: the in-memory seen dict,
the per-attempt `found_new` flag, and logs of the detail requests issued and
notification blocks printed (by document number, in order). -/
structure RunState where
  seen : Seen
  foundNew : Bool
  fetched : List String
  notified : List String
deriving DecidableEq

/-- The `for result in data.get('results', [])` loop body of `check_eos`.
Records lacking a document number, with an empty one, or already seen are
skipped.  Otherwise the detail request is issued (logged in `fetched`); if it
raises, processing aborts with the failure flag set (the exception unwinds to
the attempt's `except` handler); if it succeeds, the notification is printed
(logged in `notified`), the item is stored, and `found_new` is set. -/
def processResults (detail : String → Except String DocDetail) :
    List SummaryRec → RunState → RunState × Bool
  | [], st => (st, false)
  | r :: rest, st =>
    match r.document_number with
    | none => processResults detail rest st
    | some d =>
      if d.isEmpty then processResults detail rest st
      else if seenContains st.seen d then processResults detail rest st
      else
        match detail d with
        | Except.error _ => ({ st with fetched := st.fetched ++ [d] }, true)
        | Except.ok doc =>
          processResults detail rest
            { seen := seenInsert st.seen d (buildEOData doc d),
              foundNew := true,
              fetched := st.fetched ++ [d],
              notified := st.notified ++ [d] }

/-- One attempt of the retry loop: the listing request, then the result loop.
A listing failure sets the failure flag with no state change other than the
issued request; a success resets `found_new` and processes the results.
Returns the state after the attempt and whether it raised. -/
def runAttempt (listingRes : Except String (List SummaryRec))
    (detail : String → Except String DocDetail) (st : RunState) :
    RunState × Bool :=
  match listingRes with
  | Except.error _ => (st, true)
  | Except.ok results => processResults detail results { st with foundNew := false }

/-- The observable outcome of one `check_eos` call: the returned boolean, the
final in-memory seen dict, the mapping written by `save_seen_eos` (if any),
the logs, and the number of listing requests issued. -/
structure CycleRes where
  ok : Bool
  seen : Seen
  saved : Option Seen
  fetched : List String
  notified : List String
  listingCalls : Nat
deriving DecidableEq

/-- The `for attempt in range(MAX_RETRIES)` loop of `check_eos`, with `fuel`
attempts remaining and `attempt` the current index.  A successful attempt
saves the seen-set when `found_new` holds and returns `True`; a failed
attempt retries unless it was the last (`attempt < MAX_RETRIES - 1` in the
source, i.e. remaining fuel beyond this attempt), in which case `check_eos`
returns `False` without saving.  The in-memory dict `st.seen` carries over
between attempts, as the mutated Python dict does. -/
def checkAttempts (w : ApiWorld) :
    Nat → Nat → RunState → Nat → CycleRes
  | 0, _, st, calls =>
    { ok := false, seen := st.seen, saved := none,
      fetched := st.fetched, notified := st.notified, listingCalls := calls }
  | fuel + 1, attempt, st, calls =>
    let out := runAttempt (w.listing attempt) (w.detail attempt) st
    if out.2 then
      if fuel = 0 then
        { ok := false, seen := out.1.seen, saved := none,
          fetched := out.1.fetched, notified := out.1.notified,
          listingCalls := calls + 1 }
      else checkAttempts w fuel (attempt + 1) out.1 (calls + 1)
    else
      { ok := true, seen := out.1.seen,
        saved := if out.1.foundNew then some (save_seen_eos out.1.seen) else none,
        fetched := out.1.fetched, notified := out.1.notified,
        listingCalls := calls + 1 }

/-- The state of `check_eos` right after `seen_eos = load_seen_eos()`: the
loaded dict, no requests issued, nothing printed. -/
def initState (seen0 : Seen) : RunState :=
  { seen := seen0, foundNew := false, fetched := [], notified := [] }

/-- `check_eos`, given the loaded seen-set: runs up to `MAX_RETRIES` attempts
starting from attempt `0` with empty logs. -/
def check_eos (w : ApiWorld) (seen0 : Seen) : CycleRes :=
  checkAttempts w MAX_RETRIES 0 (initState seen0) 0

/-- The cache-file content after a cycle: the saved mapping when
`save_seen_eos` ran, otherwise the previous content. -/
def fileAfter (res : CycleRes) (fileBefore : Seen) : Seen :=
  (res.saved).getD fileBefore

/-- The backoff state held in `main`: the index into `POLL_INTERVALS` and the
consecutive-error counter. -/
structure PollState where
  intervalIndex : Nat
  consecutiveErrors : Nat
deriving Repr, DecidableEq

/-- The scheduler transition in `main` after one cycle: on success, reset the
error counter and step the index down when it was escalated; on failure,
count the error and step the index up unless already at the last interval. -/
def schedStep (s : PollState) (success : Bool) : PollState :=
  if success then
    if s.consecutiveErrors > 0 then
      { consecutiveErrors := 0,
        intervalIndex :=
          if s.intervalIndex > 0 then s.intervalIndex - 1 else s.intervalIndex }
    else s
  else
    { consecutiveErrors := s.consecutiveErrors + 1,
      intervalIndex :=
        if s.intervalIndex < POLL_INTERVALS.length - 1 then s.intervalIndex + 1
        else s.intervalIndex }

/-- `N` consecutive failed cycles from a state. -/
def failN : Nat → PollState → PollState
  | 0, s => s
  | n + 1, s => failN n (schedStep s false)

/-! ### Seen-set lemmas -/

theorem seenLookup_cons (p : String × EOData) (s : Seen) (k : String) :
    seenLookup (p :: s) k = if p.1 == k then some p.2 else seenLookup s k := by
  by_cases h : (p.1 == k) = true
  · simp [seenLookup, List.find?_cons_of_pos _ h, h]
  · simp [seenLookup, List.find?_cons_of_neg _ h, h]

theorem seenLookup_insert_self (s : Seen) (d : String) (v : EOData)
    (h : seenLookup s d = none) : seenLookup (seenInsert s d v) d = some v := by
  induction s with
  | nil => simp [seenInsert, seenLookup]
  | cons p s ih =>
    rw [seenLookup_cons] at h
    by_cases hp : (p.1 == d) = true
    · simp [hp] at h
    · have : seenInsert (p :: s) d v = p :: seenInsert s d v := rfl
      rw [this, seenLookup_cons]
      simp [hp]
      exact ih (by simpa [hp] using h)

theorem seenLookup_insert_of_some (s : Seen) (d k : String) (v w : EOData)
    (h : seenLookup s k = some v) :
    seenLookup (seenInsert s d w) k = some v := by
  induction s with
  | nil => simp [seenLookup] at h
  | cons p s ih =>
    rw [seenLookup_cons] at h
    have hc : seenInsert (p :: s) d w = p :: seenInsert s d w := rfl
    rw [hc, seenLookup_cons]
    by_cases hp : (p.1 == k) = true
    · simpa [hp] using h
    · simp [hp] at h ⊢
      exact ih h

theorem seenLookup_insert_of_ne (s : Seen) (d k : String) (v : EOData)
    (hne : k ≠ d) : seenLookup (seenInsert s d v) k = seenLookup s k := by
  induction s with
  | nil =>
    have : (d == k) = false := beq_eq_false_iff_ne.mpr (Ne.symm hne)
    simp [seenInsert, seenLookup, this]
  | cons p s ih =>
    have hc : seenInsert (p :: s) d v = p :: seenInsert s d v := rfl
    rw [hc, seenLookup_cons, seenLookup_cons, ih]

theorem seenContains_insert_of_mem (s : Seen) (d k : String) (v : EOData)
    (h : seenContains s k = true) : seenContains (seenInsert s d v) k = true := by
  unfold seenContains at h ⊢
  obtain ⟨w, hw⟩ := Option.isSome_iff_exists.mp h
  exact Option.isSome_iff_exists.mpr ⟨w, seenLookup_insert_of_some s d k w v hw⟩

theorem seenContains_insert_of_ne (s : Seen) (d k : String) (v : EOData)
    (hne : k ≠ d) : seenContains (seenInsert s d v) k = seenContains s k := by
  unfold seenContains
  rw [seenLookup_insert_of_ne s d k v hne]

/-- Pointwise extension of seen-sets: every binding of `a` is still found in
`b`. -/
def seenLe (a b : Seen) : Prop :=
  ∀ k v, seenLookup a k = some v → seenLookup b k = some v

theorem seenLe_refl (a : Seen) : seenLe a a := fun _ _ h => h

theorem seenLe_trans {a b c : Seen} (h1 : seenLe a b) (h2 : seenLe b c) :
    seenLe a c := fun k v h => h2 k v (h1 k v h)

theorem seenLe_insert (s : Seen) (d : String) (v : EOData) :
    seenLe s (seenInsert s d v) :=
  fun k w h => seenLookup_insert_of_some s d k w v h

theorem seenLe_contains {a b : Seen} (h : seenLe a b) {k : String}
    (hk : seenContains a k = true) : seenContains b k = true := by
  unfold seenContains at hk ⊢
  obtain ⟨w, hw⟩ := Option.isSome_iff_exists.mp hk
  exact Option.isSome_iff_exists.mpr ⟨w, h k w hw⟩

theorem seenLe_not_contains {a b : Seen} (h : seenLe a b) {k : String}
    (hk : seenContains b k = false) : seenContains a k = false := by
  cases hca : seenContains a k
  · rfl
  · have hb := seenLe_contains h hca
    rw [hb] at hk
    cases hk

/-! ### Unfolding lemmas for the result loop -/

theorem processResults_nil (det : String → Except String DocDetail)
    (st : RunState) : processResults det [] st = (st, false) := rfl

theorem processResults_cons_none (det : String → Except String DocDetail)
    (rest : List SummaryRec) (st : RunState) :
    processResults det (⟨none⟩ :: rest) st = processResults det rest st := rfl

theorem processResults_cons_blank (det : String → Except String DocDetail)
    (d : String) (rest : List SummaryRec) (st : RunState)
    (hb : d.isEmpty = true) :
    processResults det (⟨some d⟩ :: rest) st = processResults det rest st := by
  simp [processResults, hb]

theorem processResults_cons_seen (det : String → Except String DocDetail)
    (d : String) (rest : List SummaryRec) (st : RunState)
    (hb : d.isEmpty = false) (hs : seenContains st.seen d = true) :
    processResults det (⟨some d⟩ :: rest) st = processResults det rest st := by
  simp [processResults, hb, hs]

theorem processResults_cons_err (det : String → Except String DocDetail)
    (d e : String) (rest : List SummaryRec) (st : RunState)
    (hb : d.isEmpty = false) (hs : seenContains st.seen d = false)
    (herr : det d = Except.error e) :
    processResults det (⟨some d⟩ :: rest) st =
      ({ st with fetched := st.fetched ++ [d] }, true) := by
  simp [processResults, hb, hs, herr]

theorem processResults_cons_ok (det : String → Except String DocDetail)
    (d : String) (doc : DocDetail) (rest : List SummaryRec) (st : RunState)
    (hb : d.isEmpty = false) (hs : seenContains st.seen d = false)
    (hok : det d = Except.ok doc) :
    processResults det (⟨some d⟩ :: rest) st =
      processResults det rest
        { seen := seenInsert st.seen d (buildEOData doc d),
          foundNew := true,
          fetched := st.fetched ++ [d],
          notified := st.notified ++ [d] } := by
  simp [processResults, hb, hs, hok]

/-! ### Invariants of the result loop -/

theorem count_append_self (l : List String) (d : String) :
    (l ++ [d]).count d = l.count d + 1 := by
  simp [List.count_append]

theorem count_append_ne (l : List String) (e d : String) (h : d ≠ e) :
    (l ++ [e]).count d = l.count d := by
  simp [List.count_append, List.count_singleton', h]

theorem seenContains_insert_self (s : Seen) (d : String) (v : EOData)
    (h : seenContains s d = false) :
    seenContains (seenInsert s d v) d = true := by
  unfold seenContains at h
  cases hl : seenLookup s d with
  | some w => rw [hl] at h; simp at h
  | none =>
    unfold seenContains
    rw [seenLookup_insert_self s d v hl]
    rfl

/-- The seen dict only grows during the result loop. -/
theorem processResults_seenLe (det : String → Except String DocDetail)
    (results : List SummaryRec) :
    ∀ st : RunState, seenLe st.seen (processResults det results st).1.seen := by
  induction results with
  | nil => intro st; exact seenLe_refl _
  | cons r rest ih =>
    intro st
    obtain ⟨dn⟩ := r
    cases dn with
    | none => rw [processResults_cons_none]; exact ih st
    | some d =>
      by_cases hb : d.isEmpty = true
      · rw [processResults_cons_blank det d rest st hb]; exact ih st
      · have hb' : d.isEmpty = false := by simpa using hb
        cases hs : seenContains st.seen d with
        | true => rw [processResults_cons_seen det d rest st hb' hs]; exact ih st
        | false =>
          cases hdet : det d with
          | error e =>
            rw [processResults_cons_err det d e rest st hb' hs hdet]
            exact seenLe_refl _
          | ok doc =>
            rw [processResults_cons_ok det d doc rest st hb' hs hdet]
            exact seenLe_trans (seenLe_insert st.seen d (buildEOData doc d))
              (ih { seen := seenInsert st.seen d (buildEOData doc d),
                    foundNew := true, fetched := st.fetched ++ [d],
                    notified := st.notified ++ [d] })

/-- `found_new`, once set, stays set for the rest of the loop. -/
theorem processResults_foundNew_mono (det : String → Except String DocDetail)
    (results : List SummaryRec) :
    ∀ st : RunState, st.foundNew = true →
      (processResults det results st).1.foundNew = true := by
  induction results with
  | nil => intro st h; exact h
  | cons r rest ih =>
    intro st h
    obtain ⟨dn⟩ := r
    cases dn with
    | none => rw [processResults_cons_none]; exact ih st h
    | some d =>
      by_cases hb : d.isEmpty = true
      · rw [processResults_cons_blank det d rest st hb]; exact ih st h
      · have hb' : d.isEmpty = false := by simpa using hb
        cases hs : seenContains st.seen d with
        | true => rw [processResults_cons_seen det d rest st hb' hs]; exact ih st h
        | false =>
          cases hdet : det d with
          | error e =>
            rw [processResults_cons_err det d e rest st hb' hs hdet]
            exact h
          | ok doc =>
            rw [processResults_cons_ok det d doc rest st hb' hs hdet]
            exact ih _ rfl

/-- An identifier already in the seen dict is never fetched or notified by the
result loop, and stays in the dict. -/
theorem processResults_seen_skipped (det : String → Except String DocDetail)
    (results : List SummaryRec) :
    ∀ (st : RunState) (d : String), seenContains st.seen d = true →
      (processResults det results st).1.fetched.count d = st.fetched.count d ∧
      (processResults det results st).1.notified.count d = st.notified.count d ∧
      seenContains (processResults det results st).1.seen d = true := by
  induction results with
  | nil => intro st d hd; exact ⟨rfl, rfl, hd⟩
  | cons r rest ih =>
    intro st d hd
    obtain ⟨dn⟩ := r
    cases dn with
    | none => rw [processResults_cons_none]; exact ih st d hd
    | some e =>
      by_cases hb : e.isEmpty = true
      · rw [processResults_cons_blank det e rest st hb]; exact ih st d hd
      · have hb' : e.isEmpty = false := by simpa using hb
        cases hs : seenContains st.seen e with
        | true => rw [processResults_cons_seen det e rest st hb' hs]; exact ih st d hd
        | false =>
          have hne : d ≠ e := by
            intro hde
            rw [hde] at hd
            rw [hd] at hs
            cases hs
          cases hdet : det e with
          | error er =>
            rw [processResults_cons_err det e er rest st hb' hs hdet]
            exact ⟨count_append_ne st.fetched e d hne, rfl, hd⟩
          | ok doc =>
            rw [processResults_cons_ok det e doc rest st hb' hs hdet]
            have hd' : seenContains (seenInsert st.seen e (buildEOData doc e)) d = true :=
              seenContains_insert_of_mem st.seen e d _ hd
            obtain ⟨h1, h2, h3⟩ :=
              ih { seen := seenInsert st.seen e (buildEOData doc e),
                   foundNew := true, fetched := st.fetched ++ [e],
                   notified := st.notified ++ [e] } d hd'
            refine ⟨?_, ?_, h3⟩
            · rw [h1]; exact count_append_ne st.fetched e d hne
            · rw [h2]; exact count_append_ne st.notified e d hne

/-- A fresh, non-blank identifier appearing in the results is, on a raise-free
pass of the loop, detail-fetched exactly once, notified exactly once, and ends
up in the seen dict with `found_new` set. -/
theorem processResults_fresh_once (det : String → Except String DocDetail)
    (results : List SummaryRec) :
    ∀ (st : RunState) (d : String), d.isEmpty = false →
      seenContains st.seen d = false →
      (∃ r ∈ results, r.document_number = some d) →
      (processResults det results st).2 = false →
      (processResults det results st).1.fetched.count d = st.fetched.count d + 1 ∧
      (processResults det results st).1.notified.count d = st.notified.count d + 1 ∧
      seenContains (processResults det results st).1.seen d = true ∧
      (processResults det results st).1.foundNew = true := by
  induction results with
  | nil =>
    intro st d _ _ hmem _
    obtain ⟨r, hr, _⟩ := hmem
    cases hr
  | cons r rest ih =>
    intro st d hdb hdf hmem hsucc
    obtain ⟨dn⟩ := r
    cases dn with
    | none =>
      rw [processResults_cons_none] at hsucc ⊢
      refine ih st d hdb hdf ?_ hsucc
      obtain ⟨r, hr, hid⟩ := hmem
      rcases List.mem_cons.mp hr with h | h
      · rw [h] at hid; cases hid
      · exact ⟨r, h, hid⟩
    | some e =>
      by_cases hb : e.isEmpty = true
      · rw [processResults_cons_blank det e rest st hb] at hsucc ⊢
        refine ih st d hdb hdf ?_ hsucc
        obtain ⟨r, hr, hid⟩ := hmem
        rcases List.mem_cons.mp hr with h | h
        · rw [h] at hid
          have : e = d := by injection hid
          rw [this] at hb
          rw [hdb] at hb
          cases hb
        · exact ⟨r, h, hid⟩
      · have hb' : e.isEmpty = false := by simpa using hb
        cases hs : seenContains st.seen e with
        | true =>
          rw [processResults_cons_seen det e rest st hb' hs] at hsucc ⊢
          refine ih st d hdb hdf ?_ hsucc
          obtain ⟨r, hr, hid⟩ := hmem
          rcases List.mem_cons.mp hr with h | h
          · rw [h] at hid
            have : e = d := by injection hid
            rw [this] at hs
            rw [hdf] at hs
            cases hs
          · exact ⟨r, h, hid⟩
        | false =>
          cases hdet : det e with
          | error er =>
            rw [processResults_cons_err det e er rest st hb' hs hdet] at hsucc
            cases hsucc
          | ok doc =>
            rw [processResults_cons_ok det e doc rest st hb' hs hdet] at hsucc ⊢
            by_cases hde : e = d
            · subst hde
              have hcont : seenContains (seenInsert st.seen e (buildEOData doc e)) e = true :=
                seenContains_insert_self st.seen e _ hs
              obtain ⟨h1, h2, h3⟩ :=
                processResults_seen_skipped det rest
                  { seen := seenInsert st.seen e (buildEOData doc e),
                    foundNew := true, fetched := st.fetched ++ [e],
                    notified := st.notified ++ [e] } e hcont
              refine ⟨?_, ?_, h3, ?_⟩
              · rw [h1]; exact count_append_self st.fetched e
              · rw [h2]; exact count_append_self st.notified e
              · exact processResults_foundNew_mono det rest _ rfl
            · have hne : d ≠ e := fun h => hde h.symm
              have hmem' : ∃ r ∈ rest, r.document_number = some d := by
                obtain ⟨r, hr, hid⟩ := hmem
                rcases List.mem_cons.mp hr with h | h
                · rw [h] at hid
                  have : e = d := by injection hid
                  exact absurd this hde
                · exact ⟨r, h, hid⟩
              have hdf' : seenContains (seenInsert st.seen e (buildEOData doc e)) d = false := by
                rw [seenContains_insert_of_ne st.seen e d _ hne]
                exact hdf
              obtain ⟨h1, h2, h3, h4⟩ :=
                ih { seen := seenInsert st.seen e (buildEOData doc e),
                     foundNew := true, fetched := st.fetched ++ [e],
                     notified := st.notified ++ [e] } d hdb hdf' hmem' hsucc
              refine ⟨?_, ?_, h3, h4⟩
              · rw [h1]; rw [count_append_ne st.fetched e d hne]
              · rw [h2]; rw [count_append_ne st.notified e d hne]

/-- After a raise-free pass of the loop, every non-blank identifier of the
results is in the seen dict. -/
theorem processResults_success_mem_seen (det : String → Except String DocDetail)
    (results : List SummaryRec) :
    ∀ st : RunState, (processResults det results st).2 = false →
      ∀ d, d ∈ listingIds results → d.isEmpty = false →
        seenContains (processResults det results st).1.seen d = true := by
  induction results with
  | nil => intro st _ d hd _; cases hd
  | cons r rest ih =>
    intro st hsucc d hd hdb
    obtain ⟨dn⟩ := r
    cases dn with
    | none =>
      rw [processResults_cons_none] at hsucc ⊢
      have hd' : d ∈ listingIds rest := by
        simpa [listingIds, List.filterMap_cons] using hd
      exact ih st hsucc d hd' hdb
    | some e =>
      have hcons : listingIds (⟨some e⟩ :: rest) = e :: listingIds rest := by
        simp [listingIds, List.filterMap_cons]
      rw [hcons] at hd
      have hd' : d = e ∨ d ∈ listingIds rest := List.mem_cons.mp hd
      by_cases hb : e.isEmpty = true
      · rw [processResults_cons_blank det e rest st hb] at hsucc ⊢
        rcases hd' with h | h
        · rw [h] at hdb; rw [hdb] at hb; cases hb
        · exact ih st hsucc d h hdb
      · have hb' : e.isEmpty = false := by simpa using hb
        cases hs : seenContains st.seen e with
        | true =>
          rw [processResults_cons_seen det e rest st hb' hs] at hsucc ⊢
          rcases hd' with h | h
          · subst h
            exact seenLe_contains (processResults_seenLe det rest st) hs
          · exact ih st hsucc d h hdb
        | false =>
          cases hdet : det e with
          | error er =>
            rw [processResults_cons_err det e er rest st hb' hs hdet] at hsucc
            cases hsucc
          | ok doc =>
            rw [processResults_cons_ok det e doc rest st hb' hs hdet] at hsucc ⊢
            rcases hd' with h | h
            · subst h
              have hcont : seenContains (seenInsert st.seen d (buildEOData doc d)) d = true :=
                seenContains_insert_self st.seen d _ hs
              exact seenLe_contains
                (processResults_seenLe det rest
                  { seen := seenInsert st.seen d (buildEOData doc d),
                    foundNew := true, fetched := st.fetched ++ [d],
                    notified := st.notified ++ [d] }) hcont
            · exact ih _ hsucc d h hdb

/-- When every record of the results is blank or already seen, the loop is a
raise-free no-op. -/
theorem processResults_all_skipped (det : String → Except String DocDetail)
    (results : List SummaryRec) :
    ∀ st : RunState,
      (∀ r ∈ results, ∀ d, r.document_number = some d →
        d.isEmpty = true ∨ seenContains st.seen d = true) →
      processResults det results st = (st, false) := by
  induction results with
  | nil => intro st _; rfl
  | cons r rest ih =>
    intro st hall
    obtain ⟨dn⟩ := r
    cases dn with
    | none =>
      rw [processResults_cons_none]
      exact ih st (fun r hr => hall r (List.mem_cons_of_mem _ hr))
    | some e =>
      have he := hall ⟨some e⟩ (List.mem_cons_self _ _) e rfl
      by_cases hb : e.isEmpty = true
      · rw [processResults_cons_blank det e rest st hb]
        exact ih st (fun r hr => hall r (List.mem_cons_of_mem _ hr))
      · have hb' : e.isEmpty = false := by simpa using hb
        have hs : seenContains st.seen e = true := by
          rcases he with h | h
          · rw [h] at hb'; cases hb'
          · exact h
        rw [processResults_cons_seen det e rest st hb' hs]
        exact ih st (fun r hr => hall r (List.mem_cons_of_mem _ hr))

/-- A raise-free pass that found nothing new changed nothing at all. -/
theorem processResults_no_new_unchanged (det : String → Except String DocDetail)
    (results : List SummaryRec) :
    ∀ st : RunState, (processResults det results st).2 = false →
      (processResults det results st).1.foundNew = false →
      processResults det results st = (st, false) := by
  induction results with
  | nil => intro st _ _; rfl
  | cons r rest ih =>
    intro st hsucc hnew
    obtain ⟨dn⟩ := r
    cases dn with
    | none =>
      rw [processResults_cons_none] at hsucc hnew ⊢
      exact ih st hsucc hnew
    | some e =>
      by_cases hb : e.isEmpty = true
      · rw [processResults_cons_blank det e rest st hb] at hsucc hnew ⊢
        exact ih st hsucc hnew
      · have hb' : e.isEmpty = false := by simpa using hb
        cases hs : seenContains st.seen e with
        | true =>
          rw [processResults_cons_seen det e rest st hb' hs] at hsucc hnew ⊢
          exact ih st hsucc hnew
        | false =>
          cases hdet : det e with
          | error er =>
            rw [processResults_cons_err det e er rest st hb' hs hdet] at hsucc
            cases hsucc
          | ok doc =>
            rw [processResults_cons_ok det e doc rest st hb' hs hdet] at hnew
            have : (processResults det rest
                { seen := seenInsert st.seen e (buildEOData doc e),
                  foundNew := true, fetched := st.fetched ++ [e],
                  notified := st.notified ++ [e] }).1.foundNew = true :=
              processResults_foundNew_mono det rest _ rfl
            rw [this] at hnew
            cases hnew

/-- Notified identifiers were absent from any seen-set below the running one:
the loop only notifies identifiers fresh at notification time. -/
theorem processResults_notified_fresh (det : String → Except String DocDetail)
    (results : List SummaryRec) :
    ∀ (st : RunState) (seen0 : Seen), seenLe seen0 st.seen →
      (∀ x ∈ st.notified, seenContains seen0 x = false) →
      ∀ x ∈ (processResults det results st).1.notified, seenContains seen0 x = false := by
  induction results with
  | nil => intro st seen0 _ hfresh x hx; exact hfresh x hx
  | cons r rest ih =>
    intro st seen0 hle hfresh
    obtain ⟨dn⟩ := r
    cases dn with
    | none => rw [processResults_cons_none]; exact ih st seen0 hle hfresh
    | some e =>
      by_cases hb : e.isEmpty = true
      · rw [processResults_cons_blank det e rest st hb]; exact ih st seen0 hle hfresh
      · have hb' : e.isEmpty = false := by simpa using hb
        cases hs : seenContains st.seen e with
        | true => rw [processResults_cons_seen det e rest st hb' hs]; exact ih st seen0 hle hfresh
        | false =>
          cases hdet : det e with
          | error er =>
            rw [processResults_cons_err det e er rest st hb' hs hdet]
            exact hfresh
          | ok doc =>
            rw [processResults_cons_ok det e doc rest st hb' hs hdet]
            refine ih _ seen0 (seenLe_trans hle (seenLe_insert st.seen e _)) ?_
            intro x hx
            rcases List.mem_append.mp hx with h | h
            · exact hfresh x h
            · have hxe : x = e := List.mem_singleton.mp h
              rw [hxe]
              exact seenLe_not_contains hle hs

/-- Every identifier the loop adds to the seen dict had a succeeding detail
call. -/
theorem processResults_new_ids_ok (det : String → Except String DocDetail)
    (results : List SummaryRec) :
    ∀ (st : RunState) (k : String),
      seenContains (processResults det results st).1.seen k = true →
      seenContains st.seen k = true ∨ ∃ doc, det k = Except.ok doc := by
  induction results with
  | nil => intro st k h; exact Or.inl h
  | cons r rest ih =>
    intro st k h
    obtain ⟨dn⟩ := r
    cases dn with
    | none => rw [processResults_cons_none] at h; exact ih st k h
    | some e =>
      by_cases hb : e.isEmpty = true
      · rw [processResults_cons_blank det e rest st hb] at h; exact ih st k h
      · have hb' : e.isEmpty = false := by simpa using hb
        cases hs : seenContains st.seen e with
        | true => rw [processResults_cons_seen det e rest st hb' hs] at h; exact ih st k h
        | false =>
          cases hdet : det e with
          | error er =>
            rw [processResults_cons_err det e er rest st hb' hs hdet] at h
            exact Or.inl h
          | ok doc =>
            rw [processResults_cons_ok det e doc rest st hb' hs hdet] at h
            rcases ih _ k h with h' | h'
            · by_cases hke : k = e
              · rw [hke]
                exact Or.inr ⟨doc, hdet⟩
              · rw [seenContains_insert_of_ne st.seen e k _ hke] at h'
                exact Or.inl h'
            · exact Or.inr h'

/-- A fresh, non-blank identifier of the results whose detail call raises
makes the pass raise. -/
theorem processResults_fail_of_witness (det : String → Except String DocDetail)
    (results : List SummaryRec) :
    ∀ (st : RunState) (d e : String), d ∈ listingIds results → d.isEmpty = false →
      seenContains st.seen d = false → det d = Except.error e →
      (processResults det results st).2 = true := by
  induction results with
  | nil => intro st d e hd _ _ _; cases hd
  | cons r rest ih =>
    intro st d e hd hdb hdf hdet
    obtain ⟨dn⟩ := r
    cases dn with
    | none =>
      rw [processResults_cons_none]
      have : listingIds (⟨(none : Option String)⟩ :: rest) = listingIds rest := by
        simp [listingIds, List.filterMap_cons]
      rw [this] at hd
      exact ih st d e hd hdb hdf hdet
    | some f =>
      have hcons : listingIds (⟨some f⟩ :: rest) = f :: listingIds rest := by
        simp [listingIds, List.filterMap_cons]
      rw [hcons] at hd
      rcases List.mem_cons.mp hd with hdf' | hd'
      · subst hdf'
        rw [processResults_cons_err det d e rest st hdb hdf hdet]
      · by_cases hb : f.isEmpty = true
        · rw [processResults_cons_blank det f rest st hb]
          exact ih st d e hd' hdb hdf hdet
        · have hb' : f.isEmpty = false := by simpa using hb
          cases hs : seenContains st.seen f with
          | true =>
            rw [processResults_cons_seen det f rest st hb' hs]
            exact ih st d e hd' hdb hdf hdet
          | false =>
            cases hdet' : det f with
            | error er =>
              rw [processResults_cons_err det f er rest st hb' hs hdet']
            | ok doc =>
              rw [processResults_cons_ok det f doc rest st hb' hs hdet']
              have hne : d ≠ f := by
                intro hdf2
                rw [hdf2] at hdet
                rw [hdet] at hdet'
                cases hdet'
              refine ih _ d e hd' hdb ?_ hdet
              rw [seenContains_insert_of_ne st.seen f d _ hne]
              exact hdf

/-- Conversely, a raising pass exhibits a fresh, non-blank identifier of the
results whose detail call raises. -/
theorem processResults_fail_witness (det : String → Except String DocDetail)
    (results : List SummaryRec) :
    ∀ st : RunState, (processResults det results st).2 = true →
      ∃ d e, d ∈ listingIds results ∧ d.isEmpty = false ∧
        seenContains st.seen d = false ∧ det d = Except.error e := by
  induction results with
  | nil => intro st h; cases h
  | cons r rest ih =>
    intro st h
    obtain ⟨dn⟩ := r
    cases dn with
    | none =>
      rw [processResults_cons_none] at h
      obtain ⟨d, e, hd, hdb, hdf, hdet⟩ := ih st h
      refine ⟨d, e, ?_, hdb, hdf, hdet⟩
      have : listingIds (⟨(none : Option String)⟩ :: rest) = listingIds rest := by
        simp [listingIds, List.filterMap_cons]
      rw [this]
      exact hd
    | some f =>
      have hcons : listingIds (⟨some f⟩ :: rest) = f :: listingIds rest := by
        simp [listingIds, List.filterMap_cons]
      by_cases hb : f.isEmpty = true
      · rw [processResults_cons_blank det f rest st hb] at h
        obtain ⟨d, e, hd, hdb, hdf, hdet⟩ := ih st h
        exact ⟨d, e, by rw [hcons]; exact List.mem_cons_of_mem f hd, hdb, hdf, hdet⟩
      · have hb' : f.isEmpty = false := by simpa using hb
        cases hs : seenContains st.seen f with
        | true =>
          rw [processResults_cons_seen det f rest st hb' hs] at h
          obtain ⟨d, e, hd, hdb, hdf, hdet⟩ := ih st h
          exact ⟨d, e, by rw [hcons]; exact List.mem_cons_of_mem f hd, hdb, hdf, hdet⟩
        | false =>
          cases hdet' : det f with
          | error er =>
            exact ⟨f, er, by rw [hcons]; exact List.mem_cons_self f _, hb', hs, hdet'⟩
          | ok doc =>
            rw [processResults_cons_ok det f doc rest st hb' hs hdet'] at h
            obtain ⟨d, e, hd, hdb, hdf, hdet⟩ := ih _ h
            have hne : d ≠ f := by
              intro hdf2
              rw [hdf2] at hdet
              rw [hdet] at hdet'
              cases hdet'
            refine ⟨d, e, by rw [hcons]; exact List.mem_cons_of_mem f hd, hdb, ?_, hdet⟩
            rw [seenContains_insert_of_ne st.seen f d _ hne] at hdf
            exact hdf

/-! ### The retry loop -/

theorem checkAttempts_zero (w : ApiWorld) (a : Nat) (st : RunState) (c : Nat) :
    checkAttempts w 0 a st c =
      { ok := false, seen := st.seen, saved := none,
        fetched := st.fetched, notified := st.notified, listingCalls := c } := rfl

theorem checkAttempts_succ_fail (w : ApiWorld) (fuel a : Nat) (st : RunState)
    (c : Nat) (hf : (runAttempt (w.listing a) (w.detail a) st).2 = true)
    (hfuel : fuel ≠ 0) :
    checkAttempts w (fuel + 1) a st c =
      checkAttempts w fuel (a + 1) (runAttempt (w.listing a) (w.detail a) st).1 (c + 1) := by
  simp [checkAttempts, hf, hfuel]

theorem checkAttempts_one_fail (w : ApiWorld) (a : Nat) (st : RunState) (c : Nat)
    (hf : (runAttempt (w.listing a) (w.detail a) st).2 = true) :
    checkAttempts w 1 a st c =
      { ok := false, seen := (runAttempt (w.listing a) (w.detail a) st).1.seen,
        saved := none,
        fetched := (runAttempt (w.listing a) (w.detail a) st).1.fetched,
        notified := (runAttempt (w.listing a) (w.detail a) st).1.notified,
        listingCalls := c + 1 } := by
  simp [checkAttempts, hf]

theorem checkAttempts_succ_ok (w : ApiWorld) (fuel a : Nat) (st : RunState)
    (c : Nat) (hf : (runAttempt (w.listing a) (w.detail a) st).2 = false) :
    checkAttempts w (fuel + 1) a st c =
      { ok := true, seen := (runAttempt (w.listing a) (w.detail a) st).1.seen,
        saved := if (runAttempt (w.listing a) (w.detail a) st).1.foundNew then
            some (save_seen_eos (runAttempt (w.listing a) (w.detail a) st).1.seen)
          else none,
        fetched := (runAttempt (w.listing a) (w.detail a) st).1.fetched,
        notified := (runAttempt (w.listing a) (w.detail a) st).1.notified,
        listingCalls := c + 1 } := by
  simp [checkAttempts, hf]

theorem runAttempt_seenLe (lr : Except String (List SummaryRec))
    (det : String → Except String DocDetail) (st : RunState) :
    seenLe st.seen (runAttempt lr det st).1.seen := by
  cases lr with
  | error e => exact seenLe_refl _
  | ok results => exact processResults_seenLe det results { st with foundNew := false }

theorem runAttempt_seen_skipped (lr : Except String (List SummaryRec))
    (det : String → Except String DocDetail) (st : RunState) (d : String)
    (hd : seenContains st.seen d = true) :
    (runAttempt lr det st).1.fetched.count d = st.fetched.count d ∧
    (runAttempt lr det st).1.notified.count d = st.notified.count d ∧
    seenContains (runAttempt lr det st).1.seen d = true := by
  cases lr with
  | error e => exact ⟨rfl, rfl, hd⟩
  | ok results => exact processResults_seen_skipped det results { st with foundNew := false } d hd

theorem runAttempt_notified_fresh (lr : Except String (List SummaryRec))
    (det : String → Except String DocDetail) (st : RunState) (seen0 : Seen)
    (hle : seenLe seen0 st.seen)
    (hfresh : ∀ x ∈ st.notified, seenContains seen0 x = false) :
    ∀ x ∈ (runAttempt lr det st).1.notified, seenContains seen0 x = false := by
  cases lr with
  | error e => exact hfresh
  | ok results => exact processResults_notified_fresh det results { st with foundNew := false } seen0 hle hfresh

/-- The seen dict only grows over the whole retry loop. -/
theorem checkAttempts_seenLe (w : ApiWorld) :
    ∀ (fuel a : Nat) (st : RunState) (c : Nat),
      seenLe st.seen (checkAttempts w fuel a st c).seen := by
  intro fuel
  induction fuel with
  | zero => intro a st c; exact seenLe_refl _
  | succ n ih =>
    intro a st c
    cases hf : (runAttempt (w.listing a) (w.detail a) st).2 with
    | false =>
      rw [checkAttempts_succ_ok w n a st c hf]
      exact runAttempt_seenLe _ _ st
    | true =>
      by_cases hn : n = 0
      · subst hn
        rw [checkAttempts_one_fail w a st c hf]
        exact runAttempt_seenLe _ _ st
      · rw [checkAttempts_succ_fail w n a st c hf hn]
        exact seenLe_trans (runAttempt_seenLe _ _ st) (ih (a + 1) _ (c + 1))

/-- A cycle that returns `False` never reached `save_seen_eos`. -/
theorem checkAttempts_false_saved_none (w : ApiWorld) :
    ∀ (fuel a : Nat) (st : RunState) (c : Nat),
      (checkAttempts w fuel a st c).ok = false →
      (checkAttempts w fuel a st c).saved = none := by
  intro fuel
  induction fuel with
  | zero => intro a st c _; rfl
  | succ n ih =>
    intro a st c hok
    cases hf : (runAttempt (w.listing a) (w.detail a) st).2 with
    | false =>
      rw [checkAttempts_succ_ok w n a st c hf] at hok
      cases hok
    | true =>
      by_cases hn : n = 0
      · subst hn
        rw [checkAttempts_one_fail w a st c hf]
      · rw [checkAttempts_succ_fail w n a st c hf hn] at hok ⊢
        exact ih (a + 1) _ (c + 1) hok

/-- Whatever is saved is exactly the final in-memory seen dict. -/
theorem checkAttempts_saved_shape (w : ApiWorld) :
    ∀ (fuel a : Nat) (st : RunState) (c : Nat),
      (checkAttempts w fuel a st c).saved = none ∨
      (checkAttempts w fuel a st c).saved = some (checkAttempts w fuel a st c).seen := by
  intro fuel
  induction fuel with
  | zero => intro a st c; exact Or.inl rfl
  | succ n ih =>
    intro a st c
    cases hf : (runAttempt (w.listing a) (w.detail a) st).2 with
    | false =>
      rw [checkAttempts_succ_ok w n a st c hf]
      by_cases hnew : (runAttempt (w.listing a) (w.detail a) st).1.foundNew = true
      · right; simp [hnew, save_seen_eos]
      · left; simp at hnew; simp [hnew]
    | true =>
      by_cases hn : n = 0
      · subst hn
        rw [checkAttempts_one_fail w a st c hf]
        exact Or.inl rfl
      · rw [checkAttempts_succ_fail w n a st c hf hn]
        exact ih (a + 1) _ (c + 1)

/-- An identifier already in the seen dict at the start of the cycle is never
fetched or notified by any attempt of the cycle. -/
theorem checkAttempts_seen_skipped (w : ApiWorld) :
    ∀ (fuel a : Nat) (st : RunState) (c : Nat) (d : String),
      seenContains st.seen d = true →
      (checkAttempts w fuel a st c).fetched.count d = st.fetched.count d ∧
      (checkAttempts w fuel a st c).notified.count d = st.notified.count d := by
  intro fuel
  induction fuel with
  | zero => intro a st c d _; exact ⟨rfl, rfl⟩
  | succ n ih =>
    intro a st c d hd
    obtain ⟨h1, h2, h3⟩ := runAttempt_seen_skipped (w.listing a) (w.detail a) st d hd
    cases hf : (runAttempt (w.listing a) (w.detail a) st).2 with
    | false =>
      rw [checkAttempts_succ_ok w n a st c hf]
      exact ⟨h1, h2⟩
    | true =>
      by_cases hn : n = 0
      · subst hn
        rw [checkAttempts_one_fail w a st c hf]
        exact ⟨h1, h2⟩
      · rw [checkAttempts_succ_fail w n a st c hf hn]
        obtain ⟨h1', h2'⟩ := ih (a + 1) _ (c + 1) d h3
        exact ⟨by rw [h1', h1], by rw [h2', h2]⟩

/-- Identifiers notified during the cycle were absent from the seen dict the
cycle started from. -/
theorem checkAttempts_notified_fresh (w : ApiWorld) :
    ∀ (fuel a : Nat) (st : RunState) (c : Nat) (seen0 : Seen),
      seenLe seen0 st.seen →
      (∀ x ∈ st.notified, seenContains seen0 x = false) →
      ∀ x ∈ (checkAttempts w fuel a st c).notified, seenContains seen0 x = false := by
  intro fuel
  induction fuel with
  | zero => intro a st c seen0 _ hfresh x hx; exact hfresh x hx
  | succ n ih =>
    intro a st c seen0 hle hfresh
    have hfresh' := runAttempt_notified_fresh (w.listing a) (w.detail a) st seen0 hle hfresh
    have hle' : seenLe seen0 (runAttempt (w.listing a) (w.detail a) st).1.seen :=
      seenLe_trans hle (runAttempt_seenLe _ _ st)
    cases hf : (runAttempt (w.listing a) (w.detail a) st).2 with
    | false =>
      rw [checkAttempts_succ_ok w n a st c hf]
      exact hfresh'
    | true =>
      by_cases hn : n = 0
      · subst hn
        rw [checkAttempts_one_fail w a st c hf]
        exact hfresh'
      · rw [checkAttempts_succ_fail w n a st c hf hn]
        exact ih (a + 1) _ (c + 1) seen0 hle' hfresh'

/-- When every listing call raises, the retry loop issues one listing request
per attempt, changes nothing, saves nothing, and returns `False`. -/
theorem checkAttempts_all_listing_fail (w : ApiWorld)
    (hw : ∀ n, ∃ e, w.listing n = Except.error e) :
    ∀ (fuel a : Nat) (st : RunState) (c : Nat),
      checkAttempts w fuel a st c =
        { ok := false, seen := st.seen, saved := none,
          fetched := st.fetched, notified := st.notified,
          listingCalls := c + fuel } := by
  intro fuel
  induction fuel with
  | zero => intro a st c; rfl
  | succ n ih =>
    intro a st c
    obtain ⟨e, he⟩ := hw a
    have hrun : runAttempt (w.listing a) (w.detail a) st = (st, true) := by
      rw [he]; rfl
    have hf : (runAttempt (w.listing a) (w.detail a) st).2 = true := by rw [hrun]
    by_cases hn : n = 0
    · subst hn
      rw [checkAttempts_one_fail w a st c hf, hrun]
    · rw [checkAttempts_succ_fail w n a st c hf hn, hrun, ih (a + 1) st (c + 1)]
      have : c + 1 + n = c + (n + 1) := by omega
      rw [this]

/-- When the first attempt's listing succeeds and its result loop does not
raise, `check_eos` returns after that single attempt. -/
theorem check_eos_of_first_success (w : ApiWorld) (L : List SummaryRec)
    (seen0 : Seen) (hL : w.listing 0 = Except.ok L)
    (hsucc : (processResults (w.detail 0) L (initState seen0)).2 = false) :
    check_eos w seen0 =
      { ok := true,
        seen := (processResults (w.detail 0) L (initState seen0)).1.seen,
        saved := if (processResults (w.detail 0) L (initState seen0)).1.foundNew then
            some (save_seen_eos (processResults (w.detail 0) L (initState seen0)).1.seen)
          else none,
        fetched := (processResults (w.detail 0) L (initState seen0)).1.fetched,
        notified := (processResults (w.detail 0) L (initState seen0)).1.notified,
        listingCalls := 1 } := by
  have hrun : runAttempt (w.listing 0) (w.detail 0) (initState seen0) =
      processResults (w.detail 0) L (initState seen0) := by
    rw [hL]; rfl
  have hf : (runAttempt (w.listing 0) (w.detail 0) (initState seen0)).2 = false := by
    rw [hrun]; exact hsucc
  have : check_eos w seen0 = checkAttempts w (2 + 1) 0 (initState seen0) 0 := rfl
  rw [this, checkAttempts_succ_ok w 2 0 (initState seen0) 0 hf, hrun]

/-- In a constant world (same listing, same detail outcomes at every
attempt), a fresh non-blank identifier with a raising detail call dooms every
attempt: the cycle returns `False`. -/
theorem checkAttempts_const_fail_persists (w : ApiWorld) (L : List SummaryRec)
    (det : String → Except String DocDetail)
    (hL : ∀ n, w.listing n = Except.ok L) (hdet : ∀ n, w.detail n = det) :
    ∀ (fuel a : Nat) (st : RunState) (c : Nat) (d e : String),
      d ∈ listingIds L → d.isEmpty = false → seenContains st.seen d = false →
      det d = Except.error e →
      (checkAttempts w fuel a st c).ok = false := by
  intro fuel
  induction fuel with
  | zero => intro a st c d e _ _ _ _; rfl
  | succ n ih =>
    intro a st c d e hd hdb hdf hde
    have hrun : runAttempt (w.listing a) (w.detail a) st =
        processResults det L { st with foundNew := false } := by
      rw [hL a, hdet a]; rfl
    have hf : (runAttempt (w.listing a) (w.detail a) st).2 = true := by
      rw [hrun]
      exact processResults_fail_of_witness det L { st with foundNew := false } d e hd hdb hdf hde
    by_cases hn : n = 0
    · subst hn
      rw [checkAttempts_one_fail w a st c hf]
    · rw [checkAttempts_succ_fail w n a st c hf hn]
      cases hc : seenContains (runAttempt (w.listing a) (w.detail a) st).1.seen d with
      | false => exact ih (a + 1) _ (c + 1) d e hd hdb hc hde
      | true =>
        exfalso
        rw [hrun] at hc
        rcases processResults_new_ids_ok det L { st with foundNew := false } d hc with h | h
        · rw [hdf] at h; cases h
        · obtain ⟨doc, hdoc⟩ := h
          rw [hde] at hdoc
          cases hdoc

/-- In a constant world, a successful cycle means the very first attempt's
result loop already ran raise-free. -/
theorem check_eos_const_ok_first (w : ApiWorld) (L : List SummaryRec)
    (det : String → Except String DocDetail)
    (hL : ∀ n, w.listing n = Except.ok L) (hdet : ∀ n, w.detail n = det)
    (seen0 : Seen) (hok : (check_eos w seen0).ok = true) :
    (processResults det L (initState seen0)).2 = false := by
  cases hp : (processResults det L (initState seen0)).2 with
  | false => rfl
  | true =>
    obtain ⟨d, e, hd, hdb, hdf, hde⟩ :=
      processResults_fail_witness det L (initState seen0) hp
    have hfalse :=
      checkAttempts_const_fail_persists w L det hL hdet MAX_RETRIES 0
        (initState seen0) 0 d e hd hdb hdf hde
    have : (check_eos w seen0).ok = false := hfalse
    rw [hok] at this
    cases this

theorem seenContains_false_lookup (s : Seen) (k : String)
    (h : seenContains s k = false) : seenLookup s k = none := by
  unfold seenContains at h
  cases hl : seenLookup s k with
  | none => rfl
  | some v => rw [hl] at h; simp at h

/-- When every attempt's listing yields the same results headed by a fresh
non-blank record whose detail call always raises, each attempt issues exactly
one listing request and one detail request (for that head record) and fails;
the whole cycle returns `False`, notifies nothing, and saves nothing. -/
theorem checkAttempts_head_detail_fail (w : ApiWorld) (d e : String)
    (post : List SummaryRec) (hdb : d.isEmpty = false)
    (hw_list : ∀ n, w.listing n = Except.ok (⟨some d⟩ :: post))
    (hw_det : ∀ n, w.detail n d = Except.error e) :
    ∀ (fuel a : Nat) (st : RunState) (c : Nat), seenContains st.seen d = false →
      checkAttempts w fuel a st c =
        { ok := false, seen := st.seen, saved := none,
          fetched := st.fetched ++ List.replicate fuel d,
          notified := st.notified, listingCalls := c + fuel } := by
  intro fuel
  induction fuel with
  | zero => intro a st c _; simp [checkAttempts_zero]
  | succ n ih =>
    intro a st c hfresh
    have hrun : runAttempt (w.listing a) (w.detail a) st =
        ({ st with foundNew := false, fetched := st.fetched ++ [d] }, true) := by
      rw [hw_list a]
      show processResults (w.detail a) (⟨some d⟩ :: post) { st with foundNew := false } = _
      rw [processResults_cons_err (w.detail a) d e post { st with foundNew := false }
        hdb hfresh (hw_det a)]
    have hf : (runAttempt (w.listing a) (w.detail a) st).2 = true := by rw [hrun]
    by_cases hn : n = 0
    · subst hn
      rw [checkAttempts_one_fail w a st c hf, hrun]
      simp
    · rw [checkAttempts_succ_fail w n a st c hf hn, hrun,
        ih (a + 1) { st with foundNew := false, fetched := st.fetched ++ [d] } (c + 1) hfresh]
      simp [List.replicate_succ]
      omega

/-! ### Scheduler lemmas -/

theorem POLL_INTERVALS_length : POLL_INTERVALS.length = 5 := rfl

/-- `N` consecutive failures move the index at most `N` steps and never past
the end of the interval list. -/
theorem failN_bound :
    ∀ (N : Nat) (s : PollState), s.intervalIndex ≤ POLL_INTERVALS.length - 1 →
      (failN N s).intervalIndex ≤ POLL_INTERVALS.length - 1 ∧
      (failN N s).intervalIndex ≤ s.intervalIndex + N := by
  intro N
  induction N with
  | zero => intro s h; exact ⟨h, Nat.le_add_right _ 0⟩
  | succ n ih =>
    intro s h
    have hstep : (schedStep s false).intervalIndex ≤ POLL_INTERVALS.length - 1 ∧
        (schedStep s false).intervalIndex ≤ s.intervalIndex + 1 := by
      rw [POLL_INTERVALS_length] at h ⊢
      simp [schedStep, POLL_INTERVALS_length]
      split <;> omega
    have hfail : failN (n + 1) s = failN n (schedStep s false) := rfl
    rw [hfail]
    obtain ⟨ih1, ih2⟩ := ih (schedStep s false) hstep.1
    exact ⟨ih1, le_trans ih2 (by omega)⟩

/-! ### Claim theorems -/

/-- Claim C4: the scheduler's backoff state machine over `POLL_INTERVALS`
satisfies: on cycle failure the failure counter is incremented and the index
moves exactly one step toward the slowest interval unless already there; on
cycle success with a positive failure counter, the counter resets to 0 and
the index moves exactly one step toward the fastest interval unless already
there (never jumping directly to the fastest); and `N` consecutive failures
move the index at most `N` steps and never past the end of the list. -/
theorem claim4_backoff_transitions (s : PollState) (N : Nat)
    (hidx : s.intervalIndex ≤ POLL_INTERVALS.length - 1) :
    (schedStep s false).consecutiveErrors = s.consecutiveErrors + 1 ∧
    (s.intervalIndex < POLL_INTERVALS.length - 1 →
      (schedStep s false).intervalIndex = s.intervalIndex + 1) ∧
    (s.intervalIndex = POLL_INTERVALS.length - 1 →
      (schedStep s false).intervalIndex = s.intervalIndex) ∧
    (s.consecutiveErrors > 0 →
      (schedStep s true).consecutiveErrors = 0 ∧
      (s.intervalIndex > 0 →
        (schedStep s true).intervalIndex = s.intervalIndex - 1) ∧
      (s.intervalIndex = 0 → (schedStep s true).intervalIndex = 0)) ∧
    (failN N s).intervalIndex ≤ s.intervalIndex + N ∧
    (failN N s).intervalIndex ≤ POLL_INTERVALS.length - 1 := by
  obtain ⟨hb1, hb2⟩ := failN_bound N s hidx
  refine ⟨?_, ?_, ?_, ?_, hb2, hb1⟩
  · simp [schedStep]
  · intro h
    rw [POLL_INTERVALS_length] at h
    simp [schedStep, POLL_INTERVALS_length, h]
  · intro h
    rw [POLL_INTERVALS_length] at h
    simp [schedStep, POLL_INTERVALS_length]
    omega
  · intro h
    refine ⟨?_, ?_, ?_⟩
    · simp [schedStep, h]
    · intro h0
      simp [schedStep, h, h0]
    · intro h0
      simp [schedStep, h, h0]

/-- Witness for C4 at the concrete state (index 2, 1 consecutive error) and
`N = 7` failures. -/
theorem claim4_backoff_transitions_witness :
    (schedStep ⟨2, 1⟩ false).consecutiveErrors = 2 ∧
    (schedStep ⟨2, 1⟩ true).consecutiveErrors = 0 ∧
    (schedStep ⟨2, 1⟩ true).intervalIndex = 1 ∧
    (failN 7 ⟨2, 1⟩).intervalIndex ≤ 2 + 7 ∧
    (failN 7 ⟨2, 1⟩).intervalIndex ≤ POLL_INTERVALS.length - 1 := by
  have h := claim4_backoff_transitions ⟨2, 1⟩ 7 (by decide)
  have hs := h.2.2.2.1 (by decide)
  exact ⟨h.1, hs.1, hs.2.1 (by decide), h.2.2.2.2.1, h.2.2.2.2.2⟩

/-- Claim C5: when every listing call raises, `check_eos` issues exactly
`MAX_RETRIES = 3` listing requests, returns `False` without saving, and the
scheduler then increments the interval index by exactly one, capped at the
last list position. -/
theorem claim5_listing_retry (w : ApiWorld) (seen0 : Seen) (s : PollState)
    (hfail : ∀ n, ∃ e, w.listing n = Except.error e)
    (hidx : s.intervalIndex ≤ POLL_INTERVALS.length - 1) :
    MAX_RETRIES = 3 ∧
    (check_eos w seen0).ok = false ∧
    (check_eos w seen0).listingCalls = MAX_RETRIES ∧
    (check_eos w seen0).saved = none ∧
    (schedStep s (check_eos w seen0).ok).intervalIndex =
      min (s.intervalIndex + 1) (POLL_INTERVALS.length - 1) := by
  have hred := checkAttempts_all_listing_fail w hfail MAX_RETRIES 0 (initState seen0) 0
  have hce : check_eos w seen0 = checkAttempts w MAX_RETRIES 0 (initState seen0) 0 := rfl
  rw [hce, hred]
  refine ⟨rfl, rfl, by simp [MAX_RETRIES], rfl, ?_⟩
  rw [POLL_INTERVALS_length] at hidx ⊢
  simp [schedStep, POLL_INTERVALS_length]
  split <;> omega

/-- A world whose listing call always raises. -/
def wListFail : ApiWorld :=
  { listing := fun _ => Except.error "boom",
    detail := fun _ _ => Except.error "boom" }

/-- Witness for C5 in `wListFail` from the empty seen-set at scheduler state
(index 0, 0 errors). -/
theorem claim5_listing_retry_witness :
    (check_eos wListFail []).ok = false ∧
    (check_eos wListFail []).listingCalls = MAX_RETRIES ∧
    (check_eos wListFail []).saved = none ∧
    (schedStep ⟨0, 0⟩ (check_eos wListFail []).ok).intervalIndex =
      min (0 + 1) (POLL_INTERVALS.length - 1) := by
  have h := claim5_listing_retry wListFail [] ⟨0, 0⟩
    (fun n => ⟨"boom", rfl⟩) (by decide)
  exact ⟨h.2.1, h.2.2.1, h.2.2.2.1, h.2.2.2.2⟩

/-- Claim C7: loading the seen-set returns the empty mapping when the cache
file does not exist, the parsed mapping when the file exists and parses, and
propagates the parse error when the file exists but does not parse. -/
theorem claim7_load_seen_eos (parseJson : String → Except String Seen)
    (s1 s2 : String) (m : Seen) (e : String)
    (h1 : parseJson s1 = Except.ok m) (h2 : parseJson s2 = Except.error e) :
    load_seen_eos none parseJson = Except.ok ([] : Seen) ∧
    load_seen_eos (some s1) parseJson = Except.ok m ∧
    load_seen_eos (some s2) parseJson = Except.error e :=
  ⟨rfl, h1, h2⟩

/-- A concrete parse function: the empty file parses, anything else fails. -/
def parseEx : String → Except String Seen :=
  fun t => if t.isEmpty then Except.ok [] else Except.error "bad"

/-- Witness for C7 with `parseEx`. -/
theorem claim7_load_seen_eos_witness :
    load_seen_eos none parseEx = Except.ok ([] : Seen) ∧
    load_seen_eos (some "") parseEx = Except.ok [] ∧
    load_seen_eos (some "x") parseEx = Except.error "bad" :=
  claim7_load_seen_eos parseEx "" "x" [] "bad" rfl rfl

/-- Claim C10: a summary record whose identifier field is missing or empty is
silently skipped by the result loop: processing the listing with it is the
same as processing the listing without it, so it triggers no detail fetch, no
notification and no seen-set entry. -/
theorem claim10_blank_skipped (det : String → Except String DocDetail)
    (r : SummaryRec) (rest : List SummaryRec) (st : RunState)
    (hb : r.document_number = none ∨ r.document_number = some "") :
    processResults det (r :: rest) st = processResults det rest st := by
  obtain ⟨dn⟩ := r
  rcases hb with h | h
  · have hd : dn = none := h
    subst hd
    exact processResults_cons_none det rest st
  · have hd : dn = some "" := h
    subst hd
    exact processResults_cons_blank det "" rest st rfl

/-- Witness for C10 on a one-record listing with a missing identifier. -/
theorem claim10_blank_skipped_witness :
    processResults (fun _ => Except.error "e") (⟨none⟩ :: []) (initState []) =
      processResults (fun _ => Except.error "e") [] (initState []) :=
  claim10_blank_skipped (fun _ => Except.error "e") ⟨none⟩ [] (initState [])
    (Or.inl rfl)

/-- Claim C2: an identifier already present in the loaded seen-set is never
detail-fetched and never notified during the cycle, whatever the listing and
detail outcomes. -/
theorem claim2_seen_not_refetched (w : ApiWorld) (seen0 : Seen) (d : String)
    (h : seenContains seen0 d = true) :
    (check_eos w seen0).fetched.count d = 0 ∧
    (check_eos w seen0).notified.count d = 0 := by
  obtain ⟨h1, h2⟩ := checkAttempts_seen_skipped w MAX_RETRIES 0 (initState seen0) 0 d h
  exact ⟨h1, h2⟩

/-- A detail document used in concrete witnesses. -/
def exDoc : DocDetail :=
  { title := some "Executive Order Title",
    executive_order_number := some "14100",
    signing_date := some "2025-01-20",
    publication_date := some "2025-01-22",
    html_url := some "h", pdf_url := some "p",
    raw_text_url := some "r", body_html_url := some "b" }

/-- The stored item for document number 2025-00001. -/
def exItem : EOData := buildEOData exDoc "2025-00001"

/-- A seen-set already holding document number 2025-00001. -/
def exSeen : Seen := [("2025-00001", exItem)]

/-- A world whose listing always returns the single record 2025-00001 and
whose detail calls always succeed. -/
def wOne : ApiWorld :=
  { listing := fun _ => Except.ok [⟨some "2025-00001"⟩],
    detail := fun _ _ => Except.ok exDoc }

/-- Witness for C2: re-fetching a listing containing an already-seen
identifier triggers nothing. -/
theorem claim2_seen_not_refetched_witness :
    (check_eos wOne exSeen).fetched.count "2025-00001" = 0 ∧
    (check_eos wOne exSeen).notified.count "2025-00001" = 0 :=
  claim2_seen_not_refetched wOne exSeen "2025-00001" (by decide)

/-- Claim C8: the persisted seen-set grows monotonically: every binding of
the loaded mapping is still present, unchanged, in the final in-memory
mapping and in the cache file after the cycle. -/
theorem claim8_monotone_persist (w : ApiWorld) (seen0 : Seen) (k : String)
    (v : EOData) (h : seenLookup seen0 k = some v) :
    seenLookup (check_eos w seen0).seen k = some v ∧
    seenLookup (fileAfter (check_eos w seen0) seen0) k = some v := by
  have hle : seenLe seen0 (check_eos w seen0).seen :=
    checkAttempts_seenLe w MAX_RETRIES 0 (initState seen0) 0
  have h1 := hle k v h
  refine ⟨h1, ?_⟩
  rcases checkAttempts_saved_shape w MAX_RETRIES 0 (initState seen0) 0 with hs | hs
  · have hfa : fileAfter (check_eos w seen0) seen0 = seen0 := by
      unfold fileAfter
      rw [show (check_eos w seen0).saved = none from hs]
      rfl
    rw [hfa]
    exact h
  · have hfa : fileAfter (check_eos w seen0) seen0 = (check_eos w seen0).seen := by
      unfold fileAfter
      rw [show (check_eos w seen0).saved = some (check_eos w seen0).seen from hs]
      rfl
    rw [hfa]
    exact h1

/-- Witness for C8 in `wOne` from a seen-set holding 2025-00001. -/
theorem claim8_monotone_persist_witness :
    seenLookup (check_eos wOne exSeen).seen "2025-00001" = some exItem ∧
    seenLookup (fileAfter (check_eos wOne exSeen) exSeen) "2025-00001" = some exItem :=
  claim8_monotone_persist wOne exSeen "2025-00001" exItem (by decide)

/-- Claim C9: a cycle returning `False` never reaches `save_seen_eos`: the
cache file keeps its previous content, and every identifier notified during
the failed cycle is absent from the stored seen-set. -/
theorem claim9_failed_cycle_unpersisted (w : ApiWorld) (seen0 : Seen)
    (hfail : (check_eos w seen0).ok = false) :
    (check_eos w seen0).saved = none ∧
    fileAfter (check_eos w seen0) seen0 = seen0 ∧
    ∀ x ∈ (check_eos w seen0).notified, seenLookup seen0 x = none := by
  have hsaved : (check_eos w seen0).saved = none :=
    checkAttempts_false_saved_none w MAX_RETRIES 0 (initState seen0) 0 hfail
  refine ⟨hsaved, ?_, ?_⟩
  · unfold fileAfter
    rw [hsaved]
    rfl
  · intro x hx
    have hfr := checkAttempts_notified_fresh w MAX_RETRIES 0 (initState seen0) 0 seen0
      (seenLe_refl seen0) (fun y hy => absurd hy (List.not_mem_nil y)) x hx
    exact seenContains_false_lookup seen0 x hfr

/-- A world where item A's detail call succeeds but item B's always raises,
so every attempt notifies nothing new after A and then fails. -/
def wPartial : ApiWorld :=
  { listing := fun _ => Except.ok [⟨some "A"⟩, ⟨some "B"⟩],
    detail := fun _ d => if d = "A" then Except.ok exDoc else Except.error "x" }

/-- Witness for C9 in `wPartial`: the cycle fails after notifying A, and A is
not persisted. -/
theorem claim9_failed_cycle_unpersisted_witness :
    (check_eos wPartial []).saved = none ∧
    fileAfter (check_eos wPartial []) [] = [] ∧
    ∀ x ∈ (check_eos wPartial []).notified, seenLookup [] x = none :=
  claim9_failed_cycle_unpersisted wPartial [] (by decide)

/-- Claim C1: an identifier absent from the loaded seen-set that appears in
the fetched listing is, in a cycle whose first attempt completes without a
raise, detail-fetched exactly once, notified exactly once, and present in the
in-memory seen-set and in the persisted cache file when the cycle
completes. -/
theorem claim1_new_id_once (w : ApiWorld) (L : List SummaryRec) (seen0 : Seen)
    (d : String)
    (hL : w.listing 0 = Except.ok L)
    (hmem : ∃ r ∈ L, r.document_number = some d)
    (hdb : d.isEmpty = false)
    (hfresh : seenContains seen0 d = false)
    (hsucc : (processResults (w.detail 0) L (initState seen0)).2 = false) :
    (check_eos w seen0).ok = true ∧
    (check_eos w seen0).fetched.count d = 1 ∧
    (check_eos w seen0).notified.count d = 1 ∧
    seenContains (check_eos w seen0).seen d = true ∧
    seenContains (fileAfter (check_eos w seen0) seen0) d = true := by
  obtain ⟨h1, h2, h3, h4⟩ :=
    processResults_fresh_once (w.detail 0) L (initState seen0) d hdb hfresh hmem hsucc
  have hred := check_eos_of_first_success w L seen0 hL hsucc
  have hok : (check_eos w seen0).ok = true := by rw [hred]
  have hf : (check_eos w seen0).fetched =
      (processResults (w.detail 0) L (initState seen0)).1.fetched := by rw [hred]
  have hn : (check_eos w seen0).notified =
      (processResults (w.detail 0) L (initState seen0)).1.notified := by rw [hred]
  have hsn : (check_eos w seen0).seen =
      (processResults (w.detail 0) L (initState seen0)).1.seen := by rw [hred]
  have hsv : (check_eos w seen0).saved =
      some (processResults (w.detail 0) L (initState seen0)).1.seen := by
    rw [hred]
    simp [h4, save_seen_eos]
  have hfa : fileAfter (check_eos w seen0) seen0 =
      (processResults (w.detail 0) L (initState seen0)).1.seen := by
    unfold fileAfter
    rw [hsv]
    rfl
  refine ⟨hok, ?_, ?_, ?_, ?_⟩
  · rw [hf]
    exact h1
  · rw [hn]
    exact h2
  · rw [hsn]
    exact h3
  · rw [hfa]
    exact h3

/-- Witness for C1: the spec scenario with empty seen-set and listing
["2025-00001"]. -/
theorem claim1_new_id_once_witness :
    (check_eos wOne []).ok = true ∧
    (check_eos wOne []).fetched.count "2025-00001" = 1 ∧
    (check_eos wOne []).notified.count "2025-00001" = 1 ∧
    seenContains (check_eos wOne []).seen "2025-00001" = true ∧
    seenContains (fileAfter (check_eos wOne []) []) "2025-00001" = true :=
  claim1_new_id_once wOne [⟨some "2025-00001"⟩] [] "2025-00001" rfl
    ⟨⟨some "2025-00001"⟩, List.mem_singleton.mpr rfl, rfl⟩ (by decide) rfl (by decide)

/-- Claim C6: a raising detail call for an individual new item is not retried
for that item inside the result loop: the loop aborts at once (no further
records processed, no notification), and the failure is handled exactly like
a listing failure, by the cycle-level retry; when the detail call raises at
every attempt the whole cycle returns `False` after `MAX_RETRIES` attempts
(one listing request and one detail request per attempt, no per-item retry
loop). -/
theorem claim6_detail_fail_fast (w : ApiWorld)
    (det0 : String → Except String DocDetail) (st : RunState) (seen0 : Seen)
    (d e : String) (post : List SummaryRec)
    (hdb : d.isEmpty = false)
    (hfresh : seenContains st.seen d = false)
    (herr : det0 d = Except.error e)
    (hw_list : ∀ n, w.listing n = Except.ok (⟨some d⟩ :: post))
    (hw_det : ∀ n, w.detail n d = Except.error e)
    (hfresh0 : seenContains seen0 d = false) :
    processResults det0 (⟨some d⟩ :: post) st =
      ({ st with fetched := st.fetched ++ [d] }, true) ∧
    (check_eos w seen0).ok = false ∧
    (check_eos w seen0).notified = [] ∧
    (check_eos w seen0).fetched = List.replicate MAX_RETRIES d ∧
    (check_eos w seen0).listingCalls = MAX_RETRIES := by
  have hred := checkAttempts_head_detail_fail w d e post hdb hw_list hw_det
    MAX_RETRIES 0 (initState seen0) 0 hfresh0
  have hce : check_eos w seen0 = checkAttempts w MAX_RETRIES 0 (initState seen0) 0 := rfl
  refine ⟨processResults_cons_err det0 d e post st hdb hfresh herr, ?_, ?_, ?_, ?_⟩
  · rw [hce, hred]
  · rw [hce, hred]
    rfl
  · rw [hce, hred]
    show (initState seen0).fetched ++ List.replicate MAX_RETRIES d = List.replicate MAX_RETRIES d
    rfl
  · rw [hce, hred]
    show 0 + MAX_RETRIES = MAX_RETRIES
    rfl

/-- A world whose single listed item B has a detail call that always
raises. -/
def wDetailFail : ApiWorld :=
  { listing := fun _ => Except.ok [⟨some "B"⟩],
    detail := fun _ _ => Except.error "x" }

/-- Witness for C6 in `wDetailFail` from the empty seen-set. -/
theorem claim6_detail_fail_fast_witness :
    processResults (fun _ => Except.error "x") (⟨some "B"⟩ :: []) (initState []) =
      (⟨[], false, ["B"], []⟩, true) ∧
    (check_eos wDetailFail []).ok = false ∧
    (check_eos wDetailFail []).notified = [] ∧
    (check_eos wDetailFail []).fetched = List.replicate MAX_RETRIES "B" ∧
    (check_eos wDetailFail []).listingCalls = MAX_RETRIES :=
  claim6_detail_fail_fast wDetailFail (fun _ => Except.error "x") (initState [])
    [] "B" "x" [] (by decide) rfl rfl (fun n => rfl) (fun n => rfl) rfl

/-- Claim C3: against an unchanged remote listing (the same listing and the
same per-identifier detail outcomes at every attempt), a successful cycle
followed by a second cycle is idempotent: the second cycle succeeds, prints
no notifications, issues no detail requests, and does not rewrite the cache
file, because the file is only rewritten when at least one new item was
found. -/
theorem claim3_two_cycles_idempotent (w : ApiWorld) (L : List SummaryRec)
    (det : String → Except String DocDetail) (seen0 : Seen)
    (hL : ∀ n, w.listing n = Except.ok L) (hdet : ∀ n, w.detail n = det)
    (hok : (check_eos w seen0).ok = true) :
    (check_eos w (fileAfter (check_eos w seen0) seen0)).ok = true ∧
    (check_eos w (fileAfter (check_eos w seen0) seen0)).notified = [] ∧
    (check_eos w (fileAfter (check_eos w seen0) seen0)).fetched = [] ∧
    (check_eos w (fileAfter (check_eos w seen0) seen0)).saved = none ∧
    fileAfter (check_eos w (fileAfter (check_eos w seen0) seen0))
        (fileAfter (check_eos w seen0) seen0) =
      fileAfter (check_eos w seen0) seen0 := by
  have hsucc1 : (processResults det L (initState seen0)).2 = false :=
    check_eos_const_ok_first w L det hL hdet seen0 hok
  have hsucc1' : (processResults (w.detail 0) L (initState seen0)).2 = false := by
    rw [hdet 0]
    exact hsucc1
  have hred1 := check_eos_of_first_success w L seen0 (hL 0) hsucc1'
  have hmem : ∀ x, x ∈ listingIds L → x.isEmpty = false →
      seenContains (processResults (w.detail 0) L (initState seen0)).1.seen x = true :=
    fun x hx hxb =>
      processResults_success_mem_seen (w.detail 0) L (initState seen0) hsucc1' x hx hxb
  have hfile : ∀ x, x ∈ listingIds L → x.isEmpty = false →
      seenContains (fileAfter (check_eos w seen0) seen0) x = true := by
    intro x hx hxb
    cases hfn : (processResults (w.detail 0) L (initState seen0)).1.foundNew with
    | true =>
      have hsv : (check_eos w seen0).saved =
          some (processResults (w.detail 0) L (initState seen0)).1.seen := by
        rw [hred1]
        simp [hfn, save_seen_eos]
      have hfa : fileAfter (check_eos w seen0) seen0 =
          (processResults (w.detail 0) L (initState seen0)).1.seen := by
        unfold fileAfter
        rw [hsv]
        rfl
      rw [hfa]
      exact hmem x hx hxb
    | false =>
      have hunch := processResults_no_new_unchanged (w.detail 0) L (initState seen0) hsucc1' hfn
      have hsv : (check_eos w seen0).saved = none := by
        rw [hred1]
        simp [hfn]
      have hfa : fileAfter (check_eos w seen0) seen0 = seen0 := by
        unfold fileAfter
        rw [hsv]
        rfl
      rw [hfa]
      have hx1 := hmem x hx hxb
      rw [hunch] at hx1
      exact hx1
  have hall : ∀ r ∈ L, ∀ x, r.document_number = some x →
      x.isEmpty = true ∨
      seenContains (initState (fileAfter (check_eos w seen0) seen0)).seen x = true := by
    intro r hr x hid
    by_cases hb : x.isEmpty = true
    · exact Or.inl hb
    · right
      have hb' : x.isEmpty = false := by simpa using hb
      have hx : x ∈ listingIds L := List.mem_filterMap.mpr ⟨r, hr, hid⟩
      exact hfile x hx hb'
  have hskip : processResults det L (initState (fileAfter (check_eos w seen0) seen0)) =
      (initState (fileAfter (check_eos w seen0) seen0), false) :=
    processResults_all_skipped det L _ hall
  have hout2 : processResults (w.detail 0) L (initState (fileAfter (check_eos w seen0) seen0)) =
      (initState (fileAfter (check_eos w seen0) seen0), false) := by
    rw [hdet 0]
    exact hskip
  have hsucc2 : (processResults (w.detail 0) L
      (initState (fileAfter (check_eos w seen0) seen0))).2 = false := by
    rw [hout2]
  have hred2 := check_eos_of_first_success w L (fileAfter (check_eos w seen0) seen0)
    (hL 0) hsucc2
  rw [hred2, hout2]
  refine ⟨rfl, rfl, rfl, rfl, rfl⟩

/-- A constant world for the C3 witness: the listing is always the single
record 2025-00001 and its detail call always succeeds. -/
def detOne : String → Except String DocDetail := fun _ => Except.ok exDoc

/-- The C3 witness world, constant across attempts. -/
def wConst : ApiWorld :=
  { listing := fun _ => Except.ok [⟨some "2025-00001"⟩],
    detail := fun _ => detOne }

/-- Witness for C3 in `wConst` from the empty seen-set. -/
theorem claim3_two_cycles_idempotent_witness :
    (check_eos wConst (fileAfter (check_eos wConst []) [])).ok = true ∧
    (check_eos wConst (fileAfter (check_eos wConst []) [])).notified = [] ∧
    (check_eos wConst (fileAfter (check_eos wConst []) [])).fetched = [] ∧
    (check_eos wConst (fileAfter (check_eos wConst []) [])).saved = none ∧
    fileAfter (check_eos wConst (fileAfter (check_eos wConst []) []))
        (fileAfter (check_eos wConst []) []) =
      fileAfter (check_eos wConst []) [] :=
  claim3_two_cycles_idempotent wConst [⟨some "2025-00001"⟩] detOne []
    (fun n => rfl) (fun n => rfl) (by decide)

/-- A world whose single listed item D has a detail call that raises on the
first attempt only, as under a transient network error. -/
def wRetry : ApiWorld :=
  { listing := fun _ => Except.ok [⟨some "D"⟩],
    detail := fun n _ => if n = 0 then Except.error "t" else Except.ok exDoc }

/-- Counterexample to C1 read over every successful cycle: in `wRetry` the
cycle succeeds and the fresh identifier D is notified once and persisted, but
two detail requests were issued for it (one per attempt), not exactly one. -/
theorem claim1_counterexample :
    seenContains [] "D" = false ∧
    wRetry.listing 0 = Except.ok [⟨some "D"⟩] ∧
    (check_eos wRetry []).ok = true ∧
    (check_eos wRetry []).notified.count "D" = 1 ∧
    (check_eos wRetry []).fetched.count "D" = 2 :=
  ⟨rfl, rfl, by decide, by decide, by decide⟩

/-- Counterexample to C3 read over every pair of consecutive cycles: in
`wPartial` (unchanged listing, item B's detail always raising) the first
cycle fails, leaves the file unchanged, and the second cycle prints the
notification for A again. -/
theorem claim3_counterexample :
    wPartial.listing 0 = Except.ok [⟨some "A"⟩, ⟨some "B"⟩] ∧
    fileAfter (check_eos wPartial []) [] = [] ∧
    (check_eos wPartial (fileAfter (check_eos wPartial []) [])).notified = ["A"] :=
  ⟨rfl, by decide, by decide⟩

end EOMonitor
